import Mathlib

/-!
Verification of the quantitative-trading core of this repository against its
specification.  The Python source under apps/workers/app/tasks is shallowly
embedded: pandas/numpy numeric code is modelled over the rationals, dict
state as association lists, and raised exceptions as Except values.
-/

namespace AITradingFloor

/-! ## Factor engine: quantiles and winsorization
    (apps/workers/app/tasks/factor_engine.py) -/

/-- Ascending sort, modelling pandas sorted order of a numeric series. -/
def sortQ (l : List ℚ) : List ℚ :=
  l.insertionSort (· ≤ ·)

/-- Linear-interpolation quantile of a series, embedding
    pandas Series.quantile(p) and numpy percentile(l, 100*p):
    on the sorted values s of length n it evaluates position h = p*(n-1)
    as s[floor h] + (h - floor h) * (s[floor h + 1] - s[floor h]). -/
def quantileLinear (l : List ℚ) (p : ℚ) : ℚ :=
  let s := sortQ l
  let n := s.length
  if n = 0 then 0
  else
    let h : ℚ := p * ((n : ℚ) - 1)
    let i : ℕ := (⌊h⌋).toNat
    let γ : ℚ := h - (i : ℚ)
    if i + 1 < n then s.getD i 0 + γ * (s.getD (i + 1) 0 - s.getD i 0)
    else s.getD (n - 1) 0

/-- factor_engine.winsorize_series: clip the series to its
    [percentile, 1 - percentile] quantiles (pandas Series.clip). -/
def winsorize_series (series : List ℚ) (percentile : ℚ) : List ℚ :=
  let lower := quantileLinear series percentile
  let upper := quantileLinear series (1 - percentile)
  series.map (fun x => min upper (max lower x))

/-! ## Risk engine: historical VaR and expected shortfall
    (apps/workers/app/tasks/risk_engine.py) -/

/-- Arithmetic mean of a series (pandas Series.mean). -/
def seriesMean (l : List ℚ) : ℚ :=
  l.sum / (l.length : ℚ)

/-- risk_engine.calculate_var_historical: the empirical percentile of the
    return series at (1 - confidence) * 100, via numpy percentile. -/
def calculate_var_historical (returns : List ℚ) (confidence : ℚ) : ℚ :=
  quantileLinear returns (1 - confidence)

/-- risk_engine.calculate_es_historical: mean of the returns at or below
    the historical VaR threshold. -/
def calculate_es_historical (returns : List ℚ) (confidence : ℚ) : ℚ :=
  let var_threshold := quantileLinear returns (1 - confidence)
  seriesMean (returns.filter (fun r => r ≤ var_threshold))

lemma sortQ_sorted (l : List ℚ) : (sortQ l).Sorted (· ≤ ·) :=
  List.sorted_insertionSort _ l

lemma sortQ_perm (l : List ℚ) : List.Perm (sortQ l) l :=
  List.perm_insertionSort _ l

lemma sortQ_length (l : List ℚ) : (sortQ l).length = l.length :=
  (sortQ_perm l).length_eq

lemma sortQ_map_monotone (f : ℚ → ℚ) (hf : Monotone f) (l : List ℚ) :
    sortQ (l.map f) = (sortQ l).map f := by
  refine List.eq_of_perm_of_sorted ?_ (sortQ_sorted _) ?_
  · exact (sortQ_perm _).trans (((sortQ_perm l).symm).map f)
  · exact List.Pairwise.map f (fun a b hab => hf hab) (sortQ_sorted l)

lemma sorted_getD_mono {s : List ℚ} (hs : s.Sorted (· ≤ ·)) {i j : ℕ}
    (hij : i ≤ j) (hj : j < s.length) : s.getD i 0 ≤ s.getD j 0 := by
  have hi : i < s.length := lt_of_le_of_lt hij hj
  rw [List.getD_eq_getElem s 0 hi, List.getD_eq_getElem s 0 hj]
  have := hs.rel_get_of_le (a := ⟨i, hi⟩) (b := ⟨j, hj⟩) hij
  simpa [List.get_eq_getElem] using this

lemma getD_map_of_lt (f : ℚ → ℚ) {s : List ℚ} {k : ℕ} (hk : k < s.length) (d d' : ℚ) :
    (s.map f).getD k d = f (s.getD k d') := by
  have hk' : k < (s.map f).length := by simpa using hk
  rw [List.getD_eq_getElem _ d hk', List.getD_eq_getElem _ d' hk, List.getElem_map]

/-- When the interpolation position p*(n-1) is exactly the integer k, the
    linear-interpolation quantile is the k-th order statistic. -/
lemma quantileLinear_intIndex (l : List ℚ) (p : ℚ) (k : ℕ)
    (hk : p * ((l.length : ℚ) - 1) = (k : ℚ)) (hkn : k < l.length) :
    quantileLinear l p = (sortQ l).getD k 0 := by
  simp only [quantileLinear, sortQ_length]
  have hne : ¬ l.length = 0 := by omega
  rw [if_neg hne, hk, Int.floor_natCast, Int.toNat_natCast, sub_self, zero_mul, add_zero]
  by_cases hbr : k + 1 < l.length
  · rw [if_pos hbr]
  · rw [if_neg hbr]
    have hkeq : k = l.length - 1 := by omega
    rw [hkeq]

/-- The linear-interpolation quantile of a nonempty series at a nonnegative
    p is at least the minimum (the 0-th order statistic). -/
lemma getD_zero_le_quantileLinear (l : List ℚ) (p : ℚ) (hl : l ≠ []) (hp : 0 ≤ p) :
    (sortQ l).getD 0 0 ≤ quantileLinear l p := by
  simp only [quantileLinear, sortQ_length]
  have hpos : 0 < l.length := List.length_pos.mpr hl
  have hne : ¬ l.length = 0 := Nat.pos_iff_ne_zero.mp hpos
  rw [if_neg hne]
  have hn1 : (0 : ℚ) ≤ (l.length : ℚ) - 1 := by
    have : (1 : ℚ) ≤ (l.length : ℚ) := by exact_mod_cast hpos
    linarith
  have hh0 : 0 ≤ p * ((l.length : ℚ) - 1) := mul_nonneg hp hn1
  have hfl : 0 ≤ ⌊p * ((l.length : ℚ) - 1)⌋ := Int.floor_nonneg.mpr hh0
  have htn : (⌊p * ((l.length : ℚ) - 1)⌋.toNat : ℤ) = ⌊p * ((l.length : ℚ) - 1)⌋ :=
    Int.toNat_of_nonneg hfl
  have hγ : ((⌊p * ((l.length : ℚ) - 1)⌋.toNat : ℚ)) ≤ p * ((l.length : ℚ) - 1) := by
    have hfle : ((⌊p * ((l.length : ℚ) - 1)⌋ : ℤ) : ℚ) ≤ p * ((l.length : ℚ) - 1) :=
      Int.floor_le _
    rw [← htn] at hfle
    exact_mod_cast hfle
  by_cases hbr : ⌊p * ((l.length : ℚ) - 1)⌋.toNat + 1 < l.length
  · rw [if_pos hbr]
    have hilt : ⌊p * ((l.length : ℚ) - 1)⌋.toNat < (sortQ l).length := by
      rw [sortQ_length]; omega
    have hi1lt : ⌊p * ((l.length : ℚ) - 1)⌋.toNat + 1 < (sortQ l).length := by
      rw [sortQ_length]; omega
    have h01 : (sortQ l).getD 0 0 ≤ (sortQ l).getD ⌊p * ((l.length : ℚ) - 1)⌋.toNat 0 :=
      sorted_getD_mono (sortQ_sorted l) (Nat.zero_le _) hilt
    have h12 : (sortQ l).getD ⌊p * ((l.length : ℚ) - 1)⌋.toNat 0 ≤
        (sortQ l).getD (⌊p * ((l.length : ℚ) - 1)⌋.toNat + 1) 0 :=
      sorted_getD_mono (sortQ_sorted l) (Nat.le_succ _) hi1lt
    have hγ0 : 0 ≤ p * ((l.length : ℚ) - 1) - (⌊p * ((l.length : ℚ) - 1)⌋.toNat : ℚ) := by
      linarith
    nlinarith
  · rw [if_neg hbr]
    have : l.length - 1 < (sortQ l).length := by rw [sortQ_length]; omega
    exact sorted_getD_mono (sortQ_sorted l) (Nat.zero_le _) this

/-- The minimum order statistic of a nonempty series is a member of it. -/
lemma sortQ_getD_zero_mem (l : List ℚ) (hl : l ≠ []) : (sortQ l).getD 0 0 ∈ l := by
  have hpos : 0 < (sortQ l).length := by
    rw [sortQ_length]; exact List.length_pos.mpr hl
  rw [List.getD_eq_getElem _ 0 hpos]
  exact (sortQ_perm l).mem_iff.mp (List.getElem_mem hpos)

/-- The mean of a nonempty series bounded above by b is at most b. -/
lemma seriesMean_le (l : List ℚ) (b : ℚ) (hl : l ≠ []) (hb : ∀ x ∈ l, x ≤ b) :
    seriesMean l ≤ b := by
  have hsum : l.sum ≤ l.length • b := List.sum_le_card_nsmul l b hb
  have hlen : (0 : ℚ) < (l.length : ℚ) := by
    exact_mod_cast List.length_pos.mpr hl
  rw [seriesMean, div_le_iff₀ hlen]
  calc l.sum ≤ l.length • b := hsum
    _ = b * (l.length : ℚ) := by rw [nsmul_eq_mul]; ring

example : quantileLinear [0, 1, 2, 3] (1/20) = 3/20 := by
  norm_num [quantileLinear, sortQ, List.insertionSort, List.orderedInsert]
example : winsorize_series [0, 1, 2, 3] (1/20) = [3/20, 1, 2, 57/20] := by
  norm_num [winsorize_series, quantileLinear, sortQ, List.insertionSort, List.orderedInsert,
    Int.toNat]
example : calculate_var_historical [-1, 0] (19/20) = -19/20 := by
  norm_num [calculate_var_historical, quantileLinear, sortQ, List.insertionSort,
    List.orderedInsert]
example : calculate_es_historical [-1, 0] (19/20) = -1 := by
  norm_num [calculate_es_historical, seriesMean, quantileLinear, sortQ, List.insertionSort,
    List.orderedInsert, List.filter]

/-- Shared evaluation lemma: winsorizing [0,1,2,3] at the 5th percentile. -/
lemma winsorize_0123_eval :
    winsorize_series [0, 1, 2, 3] (1/20) = [3/20, 1, 2, 57/20] := by
  norm_num [winsorize_series, quantileLinear, sortQ, List.insertionSort, List.orderedInsert,
    Int.toNat]

/-- Shared evaluation lemma: a second winsorization moves the clipped values again. -/
lemma winsorize_0123_twice_eval :
    winsorize_series [3/20, 1, 2, 57/20] (1/20) = [111/400, 1, 2, 1089/400] := by
  norm_num [winsorize_series, quantileLinear, sortQ, List.insertionSort, List.orderedInsert,
    Int.toNat]

/-- C4 counterexample: on the two-element return series [-1, 0] (which has two
    distinct values), the historical VaR at confidence 0.95 is -19/20 while the
    historical expected shortfall is -1, so VaR ≤ ES is false: the claimed
    inequality points the wrong way on the code's return-space conventions. -/
theorem C4_var_le_es_counterexample :
    ((-1 : ℚ) ∈ ([-1, 0] : List ℚ) ∧ (0 : ℚ) ∈ ([-1, 0] : List ℚ) ∧ (-1 : ℚ) ≠ 0) ∧
    ¬ calculate_var_historical [-1, 0] (19/20) ≤ calculate_es_historical [-1, 0] (19/20) := by
  refine ⟨⟨by simp, by simp, by norm_num⟩, ?_⟩
  have h1 : calculate_var_historical [-1, 0] (19/20) = -19/20 := by
    norm_num [calculate_var_historical, quantileLinear, sortQ, List.insertionSort,
      List.orderedInsert]
  have h2 : calculate_es_historical [-1, 0] (19/20) = -1 := by
    norm_num [calculate_es_historical, seriesMean, quantileLinear, sortQ, List.insertionSort,
      List.orderedInsert, List.filter]
  rw [h1, h2]
  norm_num

/-- C4 amended: for every return series with more than one distinct value, the
    historical expected shortfall at confidence 0.95 (mean of the returns at or
    below the empirical 5th percentile) is less than or equal to the historical
    VaR at the same confidence (the empirical 5th percentile itself): the tail
    mean is at least as extreme as, i.e. numerically below, the threshold. -/
theorem C4_es_le_var (returns : List ℚ)
    (hdist : ∃ x ∈ returns, ∃ y ∈ returns, x ≠ y) :
    calculate_es_historical returns (19/20) ≤ calculate_var_historical returns (19/20) := by
  obtain ⟨x, hx, _, _, _⟩ := hdist
  have hne : returns ≠ [] := by
    intro h
    rw [h] at hx
    exact absurd hx (List.not_mem_nil x)
  simp only [calculate_es_historical, calculate_var_historical]
  apply seriesMean_le
  · have hmem : (sortQ returns).getD 0 0 ∈
        returns.filter (fun r => r ≤ quantileLinear returns (1 - 19/20)) := by
      refine List.mem_filter.mpr ⟨sortQ_getD_zero_mem returns hne, ?_⟩
      simpa using getD_zero_le_quantileLinear returns (1 - 19/20) hne (by norm_num)
    exact List.ne_nil_of_mem hmem
  · intro r hr
    have := (List.mem_filter.mp hr).2
    simpa using this

/-- C4 witness: the amended inequality at the concrete series [-1, 0]. -/
theorem C4_es_le_var_witness :
    (∃ x ∈ ([-1, 0] : List ℚ), ∃ y ∈ ([-1, 0] : List ℚ), x ≠ y) ∧
    calculate_es_historical [-1, 0] (19/20) ≤ calculate_var_historical [-1, 0] (19/20) := by
  have hdist : ∃ x ∈ ([-1, 0] : List ℚ), ∃ y ∈ ([-1, 0] : List ℚ), x ≠ y :=
    ⟨-1, by simp, 0, by simp, by norm_num⟩
  exact ⟨hdist, C4_es_le_var [-1, 0] hdist⟩

/-- C5 counterexample: winsorization is not idempotent in general. On the
    series [0, 1, 2, 3] at percentile 0.05 the first pass clips to
    [3/20, 1, 2, 57/20]; re-winsorizing that result at the same percentile
    yields [111/400, 1, 2, 1089/400], because the 5th-percentile
    interpolation of the clipped series lies strictly inside the old bounds. -/
theorem C5_winsorize_idempotent_counterexample :
    winsorize_series (winsorize_series [0, 1, 2, 3] (1/20)) (1/20) ≠
      winsorize_series [0, 1, 2, 3] (1/20) := by
  rw [winsorize_0123_eval, winsorize_0123_twice_eval]
  intro h
  have h0 : (111/400 : ℚ) = 3/20 := by
    have := congrArg (fun l => l.getD 0 0) h
    simpa using this
  norm_num at h0

/-- C5 amended: winsorization is idempotent whenever the percentile position
    p * (n - 1) falls exactly on an integer index (so both clip bounds are
    order statistics of the series), for 0 ≤ p ≤ 1/2.  In that case the
    quantiles of the clipped series coincide with the original clip bounds and
    a second pass is the identity. -/
theorem C5_winsorize_idempotent_onIndex (l : List ℚ) (p : ℚ) (hp0 : 0 ≤ p) (hp2 : p ≤ 1/2)
    (k : ℕ) (hk : p * ((l.length : ℚ) - 1) = (k : ℚ)) :
    winsorize_series (winsorize_series l p) p = winsorize_series l p := by
  by_cases hnil : l = []
  · subst hnil
    simp [winsorize_series]
  have hpos : 0 < l.length := List.length_pos.mpr hnil
  have h1n : (1 : ℚ) ≤ (l.length : ℚ) := by exact_mod_cast hpos
  have hn1 : (0 : ℚ) ≤ (l.length : ℚ) - 1 := by linarith
  -- the index k is at most (n-1)/2
  have hk2 : (2 * k : ℚ) ≤ (l.length : ℚ) - 1 := by
    have := mul_le_mul_of_nonneg_right hp2 hn1
    rw [hk] at this
    linarith
  have hk2n : 2 * k + 1 ≤ l.length := by
    have : ((2 * k + 1 : ℕ) : ℚ) ≤ (l.length : ℚ) := by push_cast; linarith
    exact_mod_cast this
  have hkn : k < l.length := by omega
  have hksub : k ≤ l.length - 1 := by omega
  -- the upper percentile position is also an integer index
  have hup : (1 - p) * ((l.length : ℚ) - 1) = ((l.length - 1 - k : ℕ) : ℚ) := by
    have hcast : ((l.length - 1 - k : ℕ) : ℚ) = (l.length : ℚ) - 1 - (k : ℚ) := by
      have h1 : ((l.length - 1 - k : ℕ) : ℚ) = ((l.length - 1 : ℕ) : ℚ) - (k : ℚ) :=
        Nat.cast_sub hksub
      have h2 : ((l.length - 1 : ℕ) : ℚ) = (l.length : ℚ) - 1 := by
        rw [Nat.cast_sub hpos, Nat.cast_one]
      rw [h1, h2]
    rw [hcast]
    have : (1 - p) * ((l.length : ℚ) - 1) = ((l.length : ℚ) - 1) - p * ((l.length : ℚ) - 1) := by
      ring
    rw [this, hk]
  have hupn : l.length - 1 - k < l.length := by omega
  have hkk : k ≤ l.length - 1 - k := by omega
  -- the two clip bounds are order statistics, and are ordered
  have hL : quantileLinear l p = (sortQ l).getD k 0 :=
    quantileLinear_intIndex l p k hk hkn
  have hU : quantileLinear l (1 - p) = (sortQ l).getD (l.length - 1 - k) 0 :=
    quantileLinear_intIndex l (1 - p) (l.length - 1 - k) hup hupn
  have hLU : quantileLinear l p ≤ quantileLinear l (1 - p) := by
    rw [hL, hU]
    exact sorted_getD_mono (sortQ_sorted l) hkk (by rw [sortQ_length]; omega)
  set L := quantileLinear l p with hLdef
  set U := quantileLinear l (1 - p) with hUdef
  have hclip_mono : Monotone (fun x : ℚ => min U (max L x)) := by
    intro a b hab
    exact min_le_min le_rfl (max_le_max le_rfl hab)
  have hw : winsorize_series l p = l.map (fun x => min U (max L x)) := by
    simp only [winsorize_series]
  -- quantiles of the clipped series: same indices, and the clip bounds are fixed points
  have hwlen : (l.map (fun x => min U (max L x))).length = l.length := by simp
  have hsortw : sortQ (l.map (fun x => min U (max L x))) =
      (sortQ l).map (fun x => min U (max L x)) :=
    sortQ_map_monotone _ hclip_mono l
  have hkS : k < (sortQ l).length := by rw [sortQ_length]; omega
  have hupS : l.length - 1 - k < (sortQ l).length := by rw [sortQ_length]; omega
  have hclipL : min U (max L L) = L := by
    rw [max_self, min_eq_right hLU]
  have hclipU : min U (max L U) = U := by
    rw [max_eq_right hLU, min_self]
  have hL2 : quantileLinear (l.map (fun x => min U (max L x))) p = L := by
    rw [quantileLinear_intIndex _ p k (by rw [hwlen]; exact hk) (by rw [hwlen]; exact hkn)]
    rw [hsortw, getD_map_of_lt _ hkS 0 0, ← hL]
    exact hclipL
  have hU2 : quantileLinear (l.map (fun x => min U (max L x))) (1 - p) = U := by
    rw [quantileLinear_intIndex _ (1 - p) (l.length - 1 - k)
      (by rw [hwlen]; exact hup) (by rw [hwlen]; exact hupn)]
    rw [hsortw, getD_map_of_lt _ hupS 0 0, ← hU]
    exact hclipU
  -- the second pass clips with the same bounds, and clipping is pointwise idempotent
  rw [hw]
  simp only [winsorize_series, hL2, hU2, List.map_map]
  apply List.map_congr_left
  intro x _
  simp only [Function.comp_apply]
  have hLx : L ≤ min U (max L x) := le_min hLU (le_max_left L x)
  rw [max_eq_right hLx, min_eq_right (min_le_left U (max L x))]

/-- C5 witness: on the three-element series [5, 1, 3] at percentile 1/2 the
    quantile position (1/2)*(3-1) = 1 is an integer index, and winsorization
    is idempotent. -/
theorem C5_winsorize_idempotent_onIndex_witness :
    ((0 : ℚ) ≤ 1/2 ∧ (1 : ℚ)/2 ≤ 1/2 ∧
      (1 : ℚ)/2 * ((([5, 1, 3] : List ℚ).length : ℚ) - 1) = ((1 : ℕ) : ℚ)) ∧
    winsorize_series (winsorize_series [5, 1, 3] (1/2)) (1/2) =
      winsorize_series [5, 1, 3] (1/2) := by
  have h0 : (0 : ℚ) ≤ 1/2 := by norm_num
  have h2 : (1 : ℚ)/2 ≤ 1/2 := le_rfl
  have hk : (1 : ℚ)/2 * ((([5, 1, 3] : List ℚ).length : ℚ) - 1) = ((1 : ℕ) : ℚ) := by
    norm_num
  exact ⟨⟨h0, h2, hk⟩, C5_winsorize_idempotent_onIndex [5, 1, 3] (1/2) h0 h2 1 hk⟩

/-! ## Factor engine dispatch and error surfacing
    (apps/workers/app/tasks/factor_engine.py) -/

/-- factor_engine.compute_factor's dispatch on the factor name, mirroring the
    if/elif chain of the source.  The per-factor computations themselves are
    abstracted to a unit payload: the claims verified here concern only which
    branch is taken and the raised ValueError, not the factor values. -/
def compute_factor (factor_name : String) : Except String Unit :=
  if factor_name = "momentum" then Except.ok ()
  else if factor_name = "value" then Except.ok ()
  else if factor_name = "quality" then Except.ok ()
  else if factor_name = "growth" then Except.ok ()
  else if factor_name = "low_vol" then Except.ok ()
  else if factor_name = "size" then Except.ok ()
  else if factor_name = "esg" then Except.ok ()
  else Except.error ("Unknown factor: " ++ factor_name)

/-- The supported factor names, in the source's dispatch order. -/
def supportedFactors : List String :=
  ["momentum", "value", "quality", "growth", "low_vol", "size", "esg"]

/-- The factor loop of factor_engine.compute_signals: compute each factor of
    the recipe in order; a raised ValueError propagates to the caller (the
    task re-raises after logging), modelled by error propagation. -/
def computeRecipeFactors : List String → Except String (List Unit)
  | [] => Except.ok []
  | f :: rest =>
    match compute_factor f with
    | Except.error e => Except.error e
    | Except.ok u =>
      match computeRecipeFactors rest with
      | Except.error e => Except.error e
      | Except.ok us => Except.ok (u :: us)

/-- C10: for a factor name outside the supported set, compute_factor fails
    with an error message naming the unknown factor, and any recipe
    containing that name makes the signal computation loop surface an error
    to the caller (never a silently defaulted success). -/
theorem C10_unknown_factor_error (factor_name : String)
    (hunk : factor_name ∉ supportedFactors) :
    compute_factor factor_name = Except.error ("Unknown factor: " ++ factor_name) ∧
    ∀ recipe : List String, factor_name ∈ recipe →
      ∃ msg : String, computeRecipeFactors recipe = Except.error msg := by
  have hne : ∀ s ∈ supportedFactors, factor_name ≠ s := fun s hs heq =>
    hunk (heq ▸ hs)
  have herr : compute_factor factor_name =
      Except.error ("Unknown factor: " ++ factor_name) := by
    rw [compute_factor]
    rw [if_neg (hne "momentum" (by simp [supportedFactors]))]
    rw [if_neg (hne "value" (by simp [supportedFactors]))]
    rw [if_neg (hne "quality" (by simp [supportedFactors]))]
    rw [if_neg (hne "growth" (by simp [supportedFactors]))]
    rw [if_neg (hne "low_vol" (by simp [supportedFactors]))]
    rw [if_neg (hne "size" (by simp [supportedFactors]))]
    rw [if_neg (hne "esg" (by simp [supportedFactors]))]
  refine ⟨herr, ?_⟩
  intro recipe hinrec
  induction recipe with
  | nil => exact absurd hinrec (List.not_mem_nil factor_name)
  | cons hd tl ih =>
    cases hcf : compute_factor hd with
    | error e =>
      exact ⟨e, by rw [computeRecipeFactors, hcf]⟩
    | ok u =>
      have htl : factor_name ∈ tl := by
        rcases List.mem_cons.mp hinrec with heq | htl
        · exfalso
          rw [heq, hcf] at herr
          exact Except.noConfusion herr
        · exact htl
      obtain ⟨msg, hmsg⟩ := ih htl
      exact ⟨msg, by rw [computeRecipeFactors, hcf, hmsg]⟩

/-- C10 witness: the unsupported name "foo" inside a one-element recipe. -/
theorem C10_unknown_factor_error_witness :
    ("foo" ∉ supportedFactors) ∧
    compute_factor "foo" = Except.error ("Unknown factor: " ++ "foo") ∧
    ("foo" ∈ (["foo"] : List String) ∧
      ∃ msg : String, computeRecipeFactors ["foo"] = Except.error msg) := by
  have hunk : "foo" ∉ supportedFactors := by simp [supportedFactors]
  obtain ⟨h1, h2⟩ := C10_unknown_factor_error "foo" hunk
  exact ⟨hunk, h1, by simp, h2 ["foo"] (by simp)⟩

/-! ## Compliance gate (apps/workers/app/tasks/compliance_engine.py) -/

/-- The position_limits section of a compliance ruleset. -/
structure PositionLimits where
  max_single_position : ℚ
  min_position_size : ℚ
  max_short_position : ℚ
deriving DecidableEq

/-- One violation / warning record as built by the compliance checks. -/
structure ComplianceRecord where
  symbol : String
  rule : String
  current : ℚ
  limit : ℚ
  message : String
deriving DecidableEq

/-- Result of one compliance check: a status plus detail records. -/
structure CheckResult where
  status : String
  violations : List ComplianceRecord
  warnings : List ComplianceRecord
deriving DecidableEq

/-- The violation records one position contributes in
    check_position_limits: |weight| above max_single_position, and weight
    below max_short_position, in the source's order. -/
def positionViolations (ruleset : PositionLimits) (sw : String × ℚ) :
    List ComplianceRecord :=
  (if |sw.2| > ruleset.max_single_position then
    [ComplianceRecord.mk sw.1 "max_single_position" sw.2 ruleset.max_single_position
      ("Position " ++ sw.1 ++ " exceeds maximum size limit")]
   else []) ++
  (if sw.2 < ruleset.max_short_position then
    [ComplianceRecord.mk sw.1 "max_short_position" sw.2 ruleset.max_short_position
      ("Short position " ++ sw.1 ++ " exceeds limit")]
   else [])

/-- The warning records one position contributes in check_position_limits:
    a nonzero |weight| below min_position_size. -/
def positionWarnings (ruleset : PositionLimits) (sw : String × ℚ) :
    List ComplianceRecord :=
  if |sw.2| > 0 ∧ |sw.2| < ruleset.min_position_size then
    [ComplianceRecord.mk sw.1 "min_position_size" sw.2 ruleset.min_position_size
      ("Position " ++ sw.1 ++ " below minimum size threshold")]
  else []

/-- compliance_engine.check_position_limits: collect the per-position
    violation and warning records over the portfolio's positions; status is
    FAIL when any violation exists, else WARNING when any warning exists,
    else the initial PASS. -/
def check_position_limits (positions : List (String × ℚ)) (ruleset : PositionLimits) :
    CheckResult :=
  let violations := positions.flatMap (positionViolations ruleset)
  let warnings := positions.flatMap (positionWarnings ruleset)
  if ¬ violations.isEmpty then CheckResult.mk "FAIL" violations warnings
  else if ¬ warnings.isEmpty then CheckResult.mk "WARNING" violations warnings
  else CheckResult.mk "PASS" violations warnings

/-- compliance_engine.calculate_compliance_status: BLOCK if any sub-check
    FAILed, else REVIEW if any check gave a WARNING, else OK. -/
def calculate_compliance_status (check_results : List CheckResult) : String :=
  if check_results.any (fun r => r.status == "FAIL") then "BLOCK"
  else if check_results.any (fun r => r.status == "WARNING") then "REVIEW"
  else "OK"

/-- C1: if some position's absolute weight strictly exceeds the ruleset's
    max_single_position, then check_position_limits reports FAIL, and any
    battery of check results containing that result aggregates to the
    overall compliance status BLOCK. -/
theorem C1_position_limit_blocks (positions : List (String × ℚ)) (ruleset : PositionLimits)
    (sym : String) (w : ℚ) (hmem : (sym, w) ∈ positions)
    (hex : |w| > ruleset.max_single_position) :
    (check_position_limits positions ruleset).status = "FAIL" ∧
    ∀ results : List CheckResult,
      check_position_limits positions ruleset ∈ results →
      calculate_compliance_status results = "BLOCK" := by
  have hrec : (ComplianceRecord.mk sym "max_single_position" w ruleset.max_single_position
      ("Position " ++ sym ++ " exceeds maximum size limit")) ∈
      positionViolations ruleset (sym, w) := by
    rw [positionViolations, if_pos hex]
    exact List.mem_append_left _ (List.mem_singleton.mpr rfl)
  have hv : (ComplianceRecord.mk sym "max_single_position" w ruleset.max_single_position
      ("Position " ++ sym ++ " exceeds maximum size limit")) ∈
      positions.flatMap (positionViolations ruleset) :=
    List.mem_flatMap.mpr ⟨(sym, w), hmem, hrec⟩
  have hviol : ¬ (positions.flatMap (positionViolations ruleset)).isEmpty := by
    rw [List.isEmpty_iff]
    exact List.ne_nil_of_mem hv
  have hstatus : (check_position_limits positions ruleset).status = "FAIL" := by
    rw [check_position_limits]
    simp only [if_pos hviol]
  refine ⟨hstatus, ?_⟩
  intro results hres
  have hany : results.any (fun r => r.status == "FAIL") = true :=
    List.any_eq_true.mpr ⟨check_position_limits positions ruleset, hres,
      by rw [hstatus]; rfl⟩
  rw [calculate_compliance_status, if_pos hany]

/-- C1 witness: a two-asset portfolio where one weight (3/5) exceeds the
    long-only ruleset's 5 percent single-position cap. -/
theorem C1_position_limit_blocks_witness :
    (("AAA", (3 : ℚ)/5) ∈ [("AAA", (3 : ℚ)/5), ("BBB", (2 : ℚ)/5)] ∧
      |(3 : ℚ)/5| > (PositionLimits.mk (1/20) (1/1000) 0).max_single_position) ∧
    (check_position_limits [("AAA", (3 : ℚ)/5), ("BBB", (2 : ℚ)/5)]
        (PositionLimits.mk (1/20) (1/1000) 0)).status = "FAIL" ∧
    ∀ results : List CheckResult,
      check_position_limits [("AAA", (3 : ℚ)/5), ("BBB", (2 : ℚ)/5)]
        (PositionLimits.mk (1/20) (1/1000) 0) ∈ results →
      calculate_compliance_status results = "BLOCK" := by
  have h1 : ("AAA", (3 : ℚ)/5) ∈ [("AAA", (3 : ℚ)/5), ("BBB", (2 : ℚ)/5)] := by simp
  have h2 : |(3 : ℚ)/5| > (PositionLimits.mk (1/20) (1/1000) 0).max_single_position := by
    rw [abs_of_nonneg (by norm_num : (0 : ℚ) ≤ 3/5)]
    norm_num
  exact ⟨⟨h1, h2⟩, C1_position_limit_blocks _ _ "AAA" ((3 : ℚ)/5) h1 h2⟩

/-! ## Backtest engine: Portfolio.rebalance
    (apps/workers/app/tasks/backtester.py)

    The python method mutates self.cash and the self.positions dict while
    iterating once over set(current symbols + target symbols).  Each
    iteration reads and writes only its own symbol's entry and subtracts its
    own cash flow, so the loop is embedded as per-symbol functions combined
    over the deduplicated symbol list; the set's iteration order does not
    affect the final cash, positions or the set of emitted trades. -/

/-- One executed trade record appended by Portfolio.rebalance. -/
structure Trade where
  symbol : String
  shares : ℚ
  price : ℚ
  value : ℚ
  cost : ℚ
deriving DecidableEq

/-- Backtest portfolio state: cash plus a symbol -> shares position map. -/
structure PortfolioState where
  cash : ℚ
  positions : List (String × ℚ)
deriving DecidableEq

/-- Current portfolio value at the rebalance date: cash plus shares * price
    for every held symbol that has a price; symbols missing from the prices
    map contribute nothing. -/
def currentValue (st : PortfolioState) (prices : List (String × ℚ)) : ℚ :=
  st.cash + (st.positions.map (fun sp =>
    match prices.lookup sp.1 with
    | some p => sp.2 * p
    | none => 0)).sum

/-- Target share counts: for each target weight whose symbol has a price,
    target shares = current value * weight / price; symbols without a price
    get no target entry. -/
def targetPositions (cv : ℚ) (target_weights prices : List (String × ℚ)) :
    List (String × ℚ) :=
  target_weights.filterMap (fun swt =>
    (prices.lookup swt.1).map (fun p => (swt.1, cv * swt.2 / p)))

/-- The symbols the rebalance loop iterates: union of currently-held and
    target symbols. -/
def rebalanceSymbols (st : PortfolioState) (tps : List (String × ℚ)) : List String :=
  (st.positions.map Prod.fst ++ tps.map Prod.fst).dedup

/-- The trade the loop body executes for one symbol, if any: skipped when
    |target - current| <= 1e-6; otherwise it records the traded shares, the
    price (prices.get(symbol, 0)), the trade value and a cost field equal to
    |trade value| * transaction_costs. -/
def tradeFor (st : PortfolioState) (tps prices : List (String × ℚ))
    (transaction_costs : ℚ) (sym : String) : Option Trade :=
  let current_shares := (st.positions.lookup sym).getD 0
  let target_shares := (tps.lookup sym).getD 0
  if |target_shares - current_shares| > 1/1000000 then
    let trade_shares := target_shares - current_shares
    let price := (prices.lookup sym).getD 0
    let trade_value := trade_shares * price
    some (Trade.mk sym trade_shares price trade_value
      (|trade_value| * transaction_costs))
  else none

/-- Cash flow of one loop iteration: an executed trade always pays/receives
    its trade value, but the transaction cost is deducted only under the
    source's `if trade_value > 0` guard. -/
def tradeCashDelta (transaction_costs : ℚ) : Option Trade → ℚ
  | none => 0
  | some tr => tr.value + (if tr.value > 0 then |tr.value| * transaction_costs else 0)

/-- New position entry for one iterated symbol, given the trade executed for
    it (if any): on an executed trade the entry is popped when the target is
    0 and set to the target otherwise; on a skipped trade the existing entry
    (if any) is kept unchanged. -/
def positionAfter (st : PortfolioState) (tps : List (String × ℚ)) (sym : String) :
    Option Trade → Option (String × ℚ)
  | some _ =>
    if (tps.lookup sym).getD 0 = 0 then none else some (sym, (tps.lookup sym).getD 0)
  | none => (st.positions.lookup sym).map (fun c => (sym, c))

/-- backtester.Portfolio.rebalance: diff current vs target positions,
    execute the per-symbol trades, update cash and positions, and return the
    new state together with the trade log. -/
def rebalance (st : PortfolioState) (target_weights prices : List (String × ℚ))
    (transaction_costs : ℚ) : PortfolioState × List Trade :=
  let cv := currentValue st prices
  let tps := targetPositions cv target_weights prices
  let syms := rebalanceSymbols st tps
  let cash := st.cash - (syms.map (fun s =>
    tradeCashDelta transaction_costs (tradeFor st tps prices transaction_costs s))).sum
  let positions := syms.filterMap (fun s =>
    positionAfter st tps s (tradeFor st tps prices transaction_costs s))
  let trades := syms.filterMap (tradeFor st tps prices transaction_costs)
  (PortfolioState.mk cash positions, trades)

lemma lookup_filterMap_eq_none {β α : Type} (l : List β) (f : β → Option (String × α))
    (sym : String) (h : ∀ b ∈ l, ∀ e, f b = some e → (sym == e.1) = false) :
    (l.filterMap f).lookup sym = none := by
  induction l with
  | nil => rfl
  | cons hd tl ih =>
    rw [List.filterMap_cons]
    cases hf : f hd with
    | none => exact ih (fun b hb e he => h b (List.mem_cons_of_mem _ hb) e he)
    | some e =>
      obtain ⟨k, v⟩ := e
      have hk := h hd (List.mem_cons_self _ _) (k, v) hf
      simp only [List.lookup, hk]
      exact ih (fun b hb e he => h b (List.mem_cons_of_mem _ hb) e he)

lemma mem_keys_of_lookup_some {α : Type} {l : List (String × α)} {sym : String} {v : α}
    (h : l.lookup sym = some v) : sym ∈ l.map Prod.fst := by
  induction l with
  | nil => exact absurd h (by simp [List.lookup])
  | cons hd tl ih =>
    obtain ⟨k, w⟩ := hd
    by_cases hbeq : sym = k
    · subst hbeq
      exact List.mem_cons_self _ _
    · have hfalse : (sym == k) = false := beq_eq_false_iff_ne.mpr hbeq
      rw [List.lookup, hfalse] at h
      exact List.mem_cons_of_mem _ (ih h)

/-- C2 (code-bug evidence): selling an entire 10-share position of "A" at
    price 10 with cost rate 1/100 emits a trade whose recorded cost field is
    1, yet the final cash is the full 100 sale proceeds with nothing
    deducted: the source deducts the cost only under `if trade_value > 0`,
    so sell trades are never charged, while the claimed model (cost = |trade
    value| * cost_rate charged regardless of direction) would leave 99. -/
theorem C2_sell_transaction_cost_not_deducted :
    rebalance (PortfolioState.mk 0 [("A", 10)]) [] [("A", 10)] (1/100) =
      (PortfolioState.mk 100 [], [Trade.mk "A" (-10) 10 (-100) 1]) ∧
    (rebalance (PortfolioState.mk 0 [("A", 10)]) [] [("A", 10)] (1/100)).1.cash ≠
      0 + 100 - |(-100 : ℚ)| * (1/100) := by
  have hcv : currentValue (PortfolioState.mk 0 [("A", 10)]) [("A", 10)] = 100 := by
    norm_num [currentValue, List.lookup]
  have htps : targetPositions 100 [] [("A", (10 : ℚ))] = [] := rfl
  have hsyms : rebalanceSymbols (PortfolioState.mk 0 [("A", 10)]) [] = ["A"] := by
    simp [rebalanceSymbols]
  have htf : tradeFor (PortfolioState.mk 0 [("A", 10)]) [] [("A", 10)] (1/100) "A" =
      some (Trade.mk "A" (-10) 10 (-100) 1) := by
    rw [tradeFor]
    norm_num [List.lookup, abs_of_nonpos, Trade.mk.injEq]
  have hpa : positionAfter (PortfolioState.mk 0 [("A", 10)]) [] "A"
      (tradeFor (PortfolioState.mk 0 [("A", 10)]) [] [("A", 10)] (1/100) "A") = none := by
    rw [htf]
    norm_num [positionAfter, List.lookup]
  have hdelta : tradeCashDelta (1/100)
      (tradeFor (PortfolioState.mk 0 [("A", 10)]) [] [("A", 10)] (1/100) "A") = -100 := by
    rw [htf]
    norm_num [tradeCashDelta]
  have heval : rebalance (PortfolioState.mk 0 [("A", 10)]) [] [("A", 10)] (1/100) =
      (PortfolioState.mk 100 [], [Trade.mk "A" (-10) 10 (-100) 1]) := by
    rw [rebalance, hcv, htps, hsyms]
    rw [List.map_cons, List.map_nil, hdelta, List.filterMap_cons, List.filterMap_cons,
      hpa, htf]
    norm_num
  refine ⟨heval, ?_⟩
  rw [heval]
  norm_num

/-- Unfolding of rebalance into its components (definitional). -/
lemma rebalance_def (st : PortfolioState) (tw prices : List (String × ℚ)) (tc : ℚ) :
    rebalance st tw prices tc =
      (PortfolioState.mk
        (st.cash -
          ((rebalanceSymbols st (targetPositions (currentValue st prices) tw prices)).map
            (fun s => tradeCashDelta tc
              (tradeFor st (targetPositions (currentValue st prices) tw prices)
                prices tc s))).sum)
        ((rebalanceSymbols st (targetPositions (currentValue st prices) tw prices)).filterMap
          (fun s => positionAfter st (targetPositions (currentValue st prices) tw prices) s
            (tradeFor st (targetPositions (currentValue st prices) tw prices) prices tc s))),
       (rebalanceSymbols st (targetPositions (currentValue st prices) tw prices)).filterMap
         (tradeFor st (targetPositions (currentValue st prices) tw prices) prices tc)) :=
  rfl

/-- C9: during a rebalance, a currently-held symbol (above the 1e-6 share
    dust threshold) that is absent from the prices map has its position
    removed, its trade recorded at price 0 with value 0 and cost 0, and a
    zero cash flow for the iteration: the position's value silently vanishes
    from the portfolio with no error raised. -/
theorem C9_missing_price_position_dropped (st : PortfolioState)
    (target_weights prices : List (String × ℚ)) (tc : ℚ) (sym : String) (sh : ℚ)
    (hlook : st.positions.lookup sym = some sh)
    (hsz : |sh| > 1/1000000)
    (hnop : prices.lookup sym = none) :
    (rebalance st target_weights prices tc).1.positions.lookup sym = none ∧
    Trade.mk sym (-sh) 0 0 0 ∈ (rebalance st target_weights prices tc).2 ∧
    tradeCashDelta tc (tradeFor st
      (targetPositions (currentValue st prices) target_weights prices) prices tc sym) = 0 := by
  set cv := currentValue st prices with hcv
  set tps := targetPositions cv target_weights prices with htpsdef
  have htpsn : tps.lookup sym = none := by
    rw [htpsdef, targetPositions]
    apply lookup_filterMap_eq_none
    intro swt _ e he
    rcases Option.map_eq_some'.mp he with ⟨p, hp, hep⟩
    have hkey : e.1 = swt.1 := by rw [← hep]
    rw [beq_eq_false_iff_ne, hkey]
    intro heq
    rw [← heq, hnop] at hp
    exact Option.noConfusion hp
  have htf : tradeFor st tps prices tc sym = some (Trade.mk sym (-sh) 0 0 0) := by
    rw [tradeFor]
    simp only [hlook, htpsn, hnop, Option.getD_some, Option.getD_none]
    rw [if_pos (by rw [zero_sub, abs_neg]; exact hsz)]
    norm_num [Trade.mk.injEq]
  have hsymmem : sym ∈ rebalanceSymbols st tps := by
    rw [rebalanceSymbols]
    exact List.mem_dedup.mpr (List.mem_append_left _ (mem_keys_of_lookup_some hlook))
  refine ⟨?_, ?_, ?_⟩
  · rw [rebalance_def]
    apply lookup_filterMap_eq_none
    intro s _ e he
    by_cases hseq : s = sym
    · subst hseq
      rw [htf, positionAfter, htpsn] at he
      simp only [Option.getD_none, if_pos rfl] at he
      exact Option.noConfusion he
    · have hkey : e.1 = s := by
        cases htr : tradeFor st tps prices tc s with
        | some tr =>
          rw [htr, positionAfter] at he
          by_cases h0 : (tps.lookup s).getD 0 = 0
          · rw [if_pos h0] at he
            exact Option.noConfusion he
          · rw [if_neg h0] at he
            rw [← Option.some.inj he]
        | none =>
          rw [htr, positionAfter] at he
          rcases Option.map_eq_some'.mp he with ⟨c, _, hce⟩
          rw [← hce]
      rw [beq_eq_false_iff_ne, hkey]
      exact fun hcon => hseq hcon.symm
  · rw [rebalance_def]
    exact List.mem_filterMap.mpr ⟨sym, hsymmem, htf⟩
  · rw [htf]
    norm_num [tradeCashDelta]

/-- C9 witness: a one-position portfolio holding 5 shares of "A" with an
    empty prices map at the rebalance date. -/
theorem C9_missing_price_position_dropped_witness :
    ((PortfolioState.mk 0 [("A", 5)]).positions.lookup "A" = some 5 ∧
      |(5 : ℚ)| > 1/1000000 ∧
      (([] : List (String × ℚ)).lookup "A" = none)) ∧
    ((rebalance (PortfolioState.mk 0 [("A", 5)]) [] [] 0).1.positions.lookup "A" = none ∧
     Trade.mk "A" (-5) 0 0 0 ∈ (rebalance (PortfolioState.mk 0 [("A", 5)]) [] [] 0).2 ∧
     tradeCashDelta 0 (tradeFor (PortfolioState.mk 0 [("A", 5)])
       (targetPositions (currentValue (PortfolioState.mk 0 [("A", 5)]) []) [] [])
       [] 0 "A") = 0) := by
  have h1 : (PortfolioState.mk 0 [("A", 5)]).positions.lookup "A" = some 5 := by
    simp [List.lookup]
  have h2 : |(5 : ℚ)| > 1/1000000 := by
    rw [abs_of_nonneg (by norm_num : (0 : ℚ) ≤ 5)]
    norm_num
  have h3 : (([] : List (String × ℚ)).lookup "A" = none) := rfl
  exact ⟨⟨h1, h2, h3⟩,
    C9_missing_price_position_dropped (PortfolioState.mk 0 [("A", 5)]) [] [] 0 "A" 5 h1 h2 h3⟩

/-! ## Order engine: VWAP / TWAP slicing
    (apps/workers/app/tasks/order_engine.py)

    Times are modelled in hours from the window start: the source converts
    datetime differences to hours before comparing, and a slice starting at
    index i has elapsed time i * slice_duration. -/

/-- order_engine.calculate_volume_multiplier: the hard-coded U-shaped volume
    curve — 1.5 when the slice starts within the first hour of the window or
    after total_duration - 1 hours, 0.7 in the middle. -/
def calculate_volume_multiplier (elapsed_hours total_duration : ℚ) : ℚ :=
  if elapsed_hours < 1 ∨ elapsed_hours > total_duration - 1 then 3/2 else 7/10

/-- Number of slices, int(total_duration / slice_duration); durations are
    positive in every use so python's truncation is the floor. -/
def numSlices (total_duration slice_duration : ℚ) : ℕ :=
  (⌊total_duration / slice_duration⌋).toNat

/-- order_engine.generate_vwap_slices, for one symbol's required trade
    value: slice i gets trade_value * multiplier / num_slices, and is kept
    only when its magnitude exceeds the $100 minimum slice size. -/
def generate_vwap_slices (trade_value total_duration slice_duration : ℚ) : List ℚ :=
  (List.range (numSlices total_duration slice_duration)).filterMap (fun (i : ℕ) =>
    let m := calculate_volume_multiplier ((i : ℚ) * slice_duration) total_duration
    let sv := trade_value * m / ((numSlices total_duration slice_duration : ℕ) : ℚ)
    if |sv| > 100 then some sv else none)

/-- order_engine.generate_twap_slices, for one symbol's required trade
    value: every slice gets trade_value / num_slices, kept only when its
    magnitude exceeds the $100 minimum slice size. -/
def generate_twap_slices (trade_value total_duration slice_duration : ℚ) : List ℚ :=
  (List.range (numSlices total_duration slice_duration)).filterMap (fun _ =>
    let sv := trade_value / ((numSlices total_duration slice_duration : ℕ) : ℚ)
    if |sv| > 100 then some sv else none)

lemma filterMap_congr_some {α β : Type} (l : List α) (g : α → Option β) (f : α → β)
    (h : ∀ a ∈ l, g a = some (f a)) : l.filterMap g = l.map f := by
  induction l with
  | nil => rfl
  | cons hd tl ih =>
    rw [List.filterMap_cons, h hd (List.mem_cons_self _ _), List.map_cons,
      ih (fun a ha => h a (List.mem_cons_of_mem _ ha))]

lemma sum_map_mul_left_q {α : Type} (l : List α) (c : ℚ) (g : α → ℚ) :
    (l.map fun a => c * g a).sum = c * (l.map g).sum := by
  induction l with
  | nil => simp
  | cons hd tl ih => simp [ih, mul_add]

/-- C6 counterexample: with the source's default 6-hour window and 30-minute
    slices, a $100,000 required trade produces VWAP slices summing to
    $90,000, not the required $100,000 — the U-shaped multipliers are
    divided by the slice count but never renormalized. -/
theorem C6_vwap_not_normalized_counterexample :
    (generate_vwap_slices 100000 6 (1/2)).sum = 90000 ∧
    (generate_vwap_slices 100000 6 (1/2)).sum ≠ 100000 := by
  have hn : numSlices 6 (1/2) = 12 := by norm_num [numSlices, Int.toNat]
  have heval : generate_vwap_slices 100000 6 (1/2) =
      [12500, 12500, 17500/3, 17500/3, 17500/3, 17500/3, 17500/3, 17500/3, 17500/3,
       17500/3, 17500/3, 12500] := by
    rw [generate_vwap_slices, hn]
    norm_num [List.range_succ, calculate_volume_multiplier, List.filterMap_cons,
      List.filterMap_nil, abs_of_pos]
  rw [heval]
  norm_num

/-- C6 amended: when every slice passes the $100 minimum-size filter, the
    VWAP slice values for a symbol sum to the required trade value times the
    mean of the U-shaped multipliers (sum of multipliers over the slice
    count), not to the required value itself: no normalization step exists. -/
theorem C6_vwap_sum_scaled (v total dur : ℚ)
    (hall : ∀ i ∈ List.range (numSlices total dur),
      |v * calculate_volume_multiplier ((i : ℚ) * dur) total /
        ((numSlices total dur : ℕ) : ℚ)| > 100) :
    (generate_vwap_slices v total dur).sum =
      v * ((List.range (numSlices total dur)).map
        (fun (i : ℕ) => calculate_volume_multiplier ((i : ℚ) * dur) total)).sum /
        ((numSlices total dur : ℕ) : ℚ) := by
  have hmap : generate_vwap_slices v total dur =
      (List.range (numSlices total dur)).map
        (fun (i : ℕ) => v * calculate_volume_multiplier ((i : ℚ) * dur) total /
          ((numSlices total dur : ℕ) : ℚ)) := by
    rw [generate_vwap_slices]
    apply filterMap_congr_some
    intro i hi
    simp only
    rw [if_pos (hall i hi)]
  rw [hmap]
  have hfuncongr : (List.range (numSlices total dur)).map
      (fun (i : ℕ) => v * calculate_volume_multiplier ((i : ℚ) * dur) total /
        ((numSlices total dur : ℕ) : ℚ)) =
      (List.range (numSlices total dur)).map
        (fun (i : ℕ) => (v / ((numSlices total dur : ℕ) : ℚ)) *
          calculate_volume_multiplier ((i : ℚ) * dur) total) := by
    apply List.map_congr_left
    intro i _
    ring
  rw [hfuncongr, sum_map_mul_left_q, div_mul_eq_mul_div]

/-- C6 witness: the amended sum identity at the 6-hour window with 30-minute
    slices and a $100,000 trade, where every slice passes the $100 filter. -/
theorem C6_vwap_sum_scaled_witness :
    (∀ i ∈ List.range (numSlices 6 (1/2)),
      |(100000 : ℚ) * calculate_volume_multiplier ((i : ℚ) * (1/2)) 6 /
        ((numSlices 6 (1/2) : ℕ) : ℚ)| > 100) ∧
    (generate_vwap_slices 100000 6 (1/2)).sum =
      100000 * ((List.range (numSlices 6 (1/2))).map
        (fun (i : ℕ) => calculate_volume_multiplier ((i : ℚ) * (1/2)) 6)).sum /
        ((numSlices 6 (1/2) : ℕ) : ℚ) := by
  have hn : numSlices 6 (1/2) = 12 := by norm_num [numSlices, Int.toNat]
  have hall : ∀ i ∈ List.range (numSlices 6 (1/2)),
      |(100000 : ℚ) * calculate_volume_multiplier ((i : ℚ) * (1/2)) 6 /
        ((numSlices 6 (1/2) : ℕ) : ℚ)| > 100 := by
    intro i hi
    rw [hn] at hi ⊢
    rw [List.mem_range] at hi
    interval_cases i <;>
      norm_num [calculate_volume_multiplier, abs_of_pos]
  exact ⟨hall, C6_vwap_sum_scaled 100000 6 (1/2) hall⟩

/-- C7 counterexample: slicing a $100,000 trade over a 2-hour window into
    four 30-minute slices, TWAP does give four $25,000 slices, but the VWAP
    slices are [37500, 37500, 17500, 37500]: the second slice starts within
    the first hour of the U-curve, so it equals the outer slices rather than
    being strictly smaller. -/
theorem C7_twap_vwap_counterexample :
    generate_twap_slices 100000 2 (1/2) = [25000, 25000, 25000, 25000] ∧
    generate_vwap_slices 100000 2 (1/2) = [37500, 37500, 17500, 37500] ∧
    ¬ ((generate_vwap_slices 100000 2 (1/2)).getD 1 0 <
        (generate_vwap_slices 100000 2 (1/2)).getD 0 0) := by
  have hn : numSlices 2 (1/2) = 4 := by norm_num [numSlices, Int.toNat]
  have htw : generate_twap_slices 100000 2 (1/2) = [25000, 25000, 25000, 25000] := by
    rw [generate_twap_slices, hn]
    norm_num [List.range_succ, List.filterMap_cons, List.filterMap_nil, abs_of_pos]
  have hvw : generate_vwap_slices 100000 2 (1/2) = [37500, 37500, 17500, 37500] := by
    rw [generate_vwap_slices, hn]
    norm_num [List.range_succ, calculate_volume_multiplier, List.filterMap_cons,
      List.filterMap_nil, abs_of_pos]
  refine ⟨htw, hvw, ?_⟩
  rw [hvw]
  norm_num

/-- C7 amended: for the 2-hour window in four 30-minute slices, TWAP yields
    four $25,000 slices; VWAP yields $37,500 for the first, second and last
    slices and $17,500 for the third: the first and last slices strictly
    exceed the third, but the second inner slice also receives the high
    multiplier and equals the outer slices. -/
theorem C7_twap_vwap_slices :
    generate_twap_slices 100000 2 (1/2) = [25000, 25000, 25000, 25000] ∧
    generate_vwap_slices 100000 2 (1/2) = [37500, 37500, 17500, 37500] ∧
    ((generate_vwap_slices 100000 2 (1/2)).getD 2 0 <
        (generate_vwap_slices 100000 2 (1/2)).getD 0 0 ∧
     (generate_vwap_slices 100000 2 (1/2)).getD 2 0 <
        (generate_vwap_slices 100000 2 (1/2)).getD 3 0 ∧
     (generate_vwap_slices 100000 2 (1/2)).getD 1 0 =
        (generate_vwap_slices 100000 2 (1/2)).getD 0 0) := by
  have hn : numSlices 2 (1/2) = 4 := by norm_num [numSlices, Int.toNat]
  have htw : generate_twap_slices 100000 2 (1/2) = [25000, 25000, 25000, 25000] := by
    rw [generate_twap_slices, hn]
    norm_num [List.range_succ, List.filterMap_cons, List.filterMap_nil, abs_of_pos]
  have hvw : generate_vwap_slices 100000 2 (1/2) = [37500, 37500, 17500, 37500] := by
    rw [generate_vwap_slices, hn]
    norm_num [List.range_succ, calculate_volume_multiplier, List.filterMap_cons,
      List.filterMap_nil, abs_of_pos]
  refine ⟨htw, hvw, ?_⟩
  rw [hvw]
  norm_num

/-! ## Portfolio optimizer: long-only feasibility and the advisory
    constraint check (apps/workers/app/tasks/portfolio_optimizer.py) -/

/-- The always-present constraint list of the cvxpy program formulated by
    mean_variance_optimization (and risk_parity_optimization): budget
    (weights sum to 1), long-only (every weight >= 0) and per-name cap
    (every weight <= max_position).  The optional sector-cap and beta
    constraints only further restrict this set.  The numerical solver
    itself is external (cvxpy); a solution it returns with status optimal
    satisfies this predicate up to solver tolerance, exactly in the ideal. -/
def solver_feasible (weight_values : List ℚ) (max_position : ℚ) : Prop :=
  weight_values.sum = 1 ∧ (∀ w ∈ weight_values, 0 ≤ w) ∧
    (∀ w ∈ weight_values, w ≤ max_position)

/-- The boolean results of portfolio_optimizer.check_constraints on the
    branches the claim concerns (no sector_caps in the constraint set). -/
structure ConstraintChecks where
  budget : Bool
  long_only : Bool
  max_position : Bool
deriving DecidableEq

/-- portfolio_optimizer.check_constraints: budget |sum - 1| < 1e-6,
    long-only all weights >= 0, max position all weights <= max_position. -/
def check_constraints (weight_values : List ℚ) (max_position : ℚ) : ConstraintChecks :=
  ConstraintChecks.mk
    (decide (|weight_values.sum - 1| < 1/1000000))
    (weight_values.all (fun w => decide (0 ≤ w)))
    (weight_values.all (fun w => decide (w ≤ max_position)))

/-- C3: any weight vector satisfying the long-only program's constraint
    list sums to 1 within 1e-6, is componentwise nonnegative, stays within
    max_position + 1e-6, and passes every branch of the source's advisory
    check_constraints pass. -/
theorem C3_long_only_weights (ws : List ℚ) (maxPos : ℚ)
    (hfeas : solver_feasible ws maxPos) :
    |ws.sum - 1| ≤ 1/1000000 ∧ (∀ w ∈ ws, 0 ≤ w) ∧
    (∀ w ∈ ws, w ≤ maxPos + 1/1000000) ∧
    check_constraints ws maxPos = ConstraintChecks.mk true true true := by
  obtain ⟨hsum, hpos, hmax⟩ := hfeas
  refine ⟨by rw [hsum]; norm_num, hpos,
    fun w hw => le_trans (hmax w hw) (by linarith), ?_⟩
  simp only [check_constraints, ConstraintChecks.mk.injEq]
  refine ⟨?_, ?_, ?_⟩
  · rw [hsum, decide_eq_true_eq]
    norm_num
  · rw [List.all_eq_true]
    intro w hw
    exact decide_eq_true (hpos w hw)
  · rw [List.all_eq_true]
    intro w hw
    exact decide_eq_true (hmax w hw)

/-- C3 witness: the two-asset equal-weight vector with max_position = 1. -/
theorem C3_long_only_weights_witness :
    solver_feasible [1/2, 1/2] 1 ∧
    (|([1/2, 1/2] : List ℚ).sum - 1| ≤ 1/1000000 ∧
     (∀ w ∈ ([1/2, 1/2] : List ℚ), 0 ≤ w) ∧
     (∀ w ∈ ([1/2, 1/2] : List ℚ), w ≤ 1 + 1/1000000) ∧
     check_constraints [1/2, 1/2] 1 = ConstraintChecks.mk true true true) := by
  have hfeas : solver_feasible [1/2, 1/2] 1 := by
    refine ⟨by norm_num, ?_, ?_⟩ <;>
      · intro w hw
        rcases List.mem_cons.mp hw with h | h
        · rw [h]; norm_num
        · rcases List.mem_cons.mp h with h2 | h2
          · rw [h2]; norm_num
          · exact absurd h2 (List.not_mem_nil w)
  exact ⟨hfeas, C3_long_only_weights [1/2, 1/2] 1 hfeas⟩

/-! ## Covariance shrinkage (portfolio_optimizer.apply_shrinkage) -/

/-- Average off-diagonal correlation: the mean over the strict upper
    triangle of the sample correlation matrix M_ij / (σ_i σ_j). -/
def targetCorrelation {n : ℕ} (σ : Fin n → ℚ) (M : Matrix (Fin n) (Fin n) ℚ) : ℚ :=
  (∑ p ∈ Finset.univ.filter (fun p : Fin n × Fin n => p.1 < p.2),
    M p.1 p.2 / (σ p.1 * σ p.2)) /
  (((Finset.univ.filter (fun p : Fin n × Fin n => p.1 < p.2)).card : ℕ) : ℚ)

/-- apply_shrinkage's target covariance: the constant-correlation matrix
    (1 on the diagonal, the average correlation elsewhere) rescaled by the
    outer product of the standard deviations. -/
def targetCovariance {n : ℕ} (σ : Fin n → ℚ) (M : Matrix (Fin n) (Fin n) ℚ) :
    Matrix (Fin n) (Fin n) ℚ :=
  Matrix.of fun i j => (if i = j then 1 else targetCorrelation σ M) * (σ i * σ j)

/-- portfolio_optimizer.apply_shrinkage with the constant_correlation
    target and the fixed shrinkage parameter 0.3:
    shrunk = (1 - 0.3) * sample + 0.3 * target.  The standard deviations σ
    (numpy sqrt of the diagonal) are supplied as data with σ_i^2 = M_i_i,
    since ℚ has no square roots. -/
def apply_shrinkage {n : ℕ} (σ : Fin n → ℚ) (M : Matrix (Fin n) (Fin n) ℚ) :
    Matrix (Fin n) (Fin n) ℚ :=
  (1 - 3/10 : ℚ) • M + (3/10 : ℚ) • targetCovariance σ M

/-- The spec's wording of the target matrix: the assets' variances (the
    sample diagonal) on the diagonal, the single average off-diagonal
    correlation rescaled by σ_i σ_j off the diagonal. -/
def targetCovarianceSpec {n : ℕ} (σ : Fin n → ℚ) (M : Matrix (Fin n) (Fin n) ℚ) :
    Matrix (Fin n) (Fin n) ℚ :=
  Matrix.of fun i j => if i = j then M i i else targetCorrelation σ M * (σ i * σ j)

/-- C8: for a symmetric sample covariance with positive diagonal (σ being
    the square roots of the diagonal), the shrinkage step returns exactly
    0.7 * sample + 0.3 * target with the spec's target matrix, and the
    result is symmetric. -/
theorem C8_shrinkage_blend {n : ℕ} (σ : Fin n → ℚ) (M : Matrix (Fin n) (Fin n) ℚ)
    (hσ : ∀ i, 0 < σ i) (hdiag : ∀ i, σ i ^ 2 = M i i) (hsymm : M.transpose = M) :
    apply_shrinkage σ M = (1 - 3/10 : ℚ) • M + (3/10 : ℚ) • targetCovarianceSpec σ M ∧
    (apply_shrinkage σ M).transpose = apply_shrinkage σ M := by
  have htarget : targetCovariance σ M = targetCovarianceSpec σ M := by
    ext i j
    simp only [targetCovariance, targetCovarianceSpec, Matrix.of_apply]
    by_cases hij : i = j
    · rw [if_pos hij, if_pos hij, one_mul, hij, ← hdiag j]
      ring
    · rw [if_neg hij, if_neg hij]
  have hMji : ∀ i j, M j i = M i j := by
    intro i j
    have := congrFun (congrFun hsymm i) j
    rw [← this]
    rfl
  have hts : (targetCovariance σ M).transpose = targetCovariance σ M := by
    ext i j
    simp only [Matrix.transpose_apply, targetCovariance, Matrix.of_apply]
    by_cases hij : i = j
    · rw [hij]
    · rw [if_neg hij, if_neg (fun h => hij h.symm)]
      ring
  refine ⟨by rw [apply_shrinkage, htarget], ?_⟩
  rw [apply_shrinkage, Matrix.transpose_add, Matrix.transpose_smul,
    Matrix.transpose_smul, hsymm, hts]

/-- C8 witness: the symmetric 2x2 covariance [[4,1],[1,9]] with standard
    deviations (2, 3). -/
theorem C8_shrinkage_blend_witness :
    ((∀ i, 0 < (![2, 3] : Fin 2 → ℚ) i) ∧
     (∀ i, (![2, 3] : Fin 2 → ℚ) i ^ 2 = (!![4, 1; 1, 9] : Matrix (Fin 2) (Fin 2) ℚ) i i) ∧
     (!![4, 1; 1, 9] : Matrix (Fin 2) (Fin 2) ℚ).transpose = !![4, 1; 1, 9]) ∧
    (apply_shrinkage (![2, 3]) (!![4, 1; 1, 9]) =
      (1 - 3/10 : ℚ) • (!![4, 1; 1, 9] : Matrix (Fin 2) (Fin 2) ℚ) +
        (3/10 : ℚ) • targetCovarianceSpec (![2, 3]) (!![4, 1; 1, 9]) ∧
     (apply_shrinkage (![2, 3]) (!![4, 1; 1, 9])).transpose =
       apply_shrinkage (![2, 3]) (!![4, 1; 1, 9])) := by
  have hσ : ∀ i, 0 < (![2, 3] : Fin 2 → ℚ) i := by
    intro i
    fin_cases i <;> norm_num
  have hdiag : ∀ i, (![2, 3] : Fin 2 → ℚ) i ^ 2 =
      (!![4, 1; 1, 9] : Matrix (Fin 2) (Fin 2) ℚ) i i := by
    intro i
    fin_cases i <;> norm_num
  have hsymm : (!![4, 1; 1, 9] : Matrix (Fin 2) (Fin 2) ℚ).transpose = !![4, 1; 1, 9] := by
    ext i j
    fin_cases i <;> fin_cases j <;> simp
  exact ⟨⟨hσ, hdiag, hsymm⟩, C8_shrinkage_blend (![2, 3]) (!![4, 1; 1, 9]) hσ hdiag hsymm⟩

end AITradingFloor
